import Mathlib

/-!
Verification development for the hal alignment store and depth scanner.

Shallow embedding of two source files:
* src/identity/halIdentity.cpp — the alignment-depth scan (printSequence,
  printGenome and the per-column counting loop);
* src/api/hdf5_impl/hdf5Alignment.cpp — the HDF5-backed alignment store
  (tree index, genome cache, dirty flag, lifecycle).

Machine integers (hal_size_t, a 64-bit unsigned type) are modelled as Nat
reduced mod 2 ^ 64 wherever overflow can matter.  Fallible operations
return Except / Option.  External collaborators (the column iterator, the
sonLib tree primitives, HDF5 metadata and genome payload storage) are
modelled from the spec as small interfaces, marked in their doc comments.
-/

namespace HalSpec

/-- Width of hal_size_t / uint64 arithmetic: values live in [0, W). -/
def W : Nat := 2 ^ 64

/-- C unsigned subtraction a - b on uint64 operands (wraps mod W). -/
def sub64 (a b : Nat) : Nat := (a + (W - b % W)) % W

/-- C tolower as applied to nucleotide characters (ASCII letters). -/
def toLowerCh (c : Char) : Char :=
  if 'A' ≤ c ∧ c ≤ 'Z' then Char.ofNat (c.toNat + 32) else c

/-- One entry of a ColumnIterator column map: the sequence key together
with the genome that sequence belongs to and the list of bases present at
the column for that sequence (possibly empty, halIdentity.cpp line 288). -/
structure ColEntry where
  seqId : Nat
  genome : Nat
  bases : List Char
deriving Repr, DecidableEq

/-- The per-column loop state of printSequence: the two hal_size_t
counters (values mod W) and the genome of the last counted entry
(halIdentity.cpp lines 275-278). -/
structure ColSt where
  nIdentical : Nat
  nAligned : Nat
  lastGenome : Option Nat
deriving Repr, DecidableEq

/-- Initial per-column state: both counters are declared as
hal_size_t n = -1, which is 2 ^ 64 - 1 (halIdentity.cpp lines 275-276),
and last_genome = NULL (line 278). -/
def colInit : ColSt := ⟨W - 1, W - 1, none⟩

/-- Body of the for-loop over the column map (halIdentity.cpp lines
287-300): skip empty entries, skip an entry whose genome equals the
genome of the previously counted entry, otherwise bump n_aligned and,
when the lowercased first base equals the target nucleotide, n_identical. -/
def stepEntry (targetNuc : Char) (st : ColSt) (e : ColEntry) : ColSt :=
  match e.bases with
  | [] => st
  | b :: _ =>
    if st.lastGenome = some e.genome then st
    else
      { nIdentical := if toLowerCh b = targetNuc then (st.nIdentical + 1) % W else st.nIdentical
        nAligned := (st.nAligned + 1) % W
        lastGenome := some e.genome }

/-- Process one alignment column (halIdentity.cpp lines 274-303): read the
reference base from the entry keyed by the scanned sequence, fold the loop
body over all entries, and return the pair (n_identical, n_aligned)
written to the two output tracks.  Returns none where the C++ would fault
(reference entry absent from the map, or present with no bases). -/
def processColumn (refSeq : Nat) (col : List ColEntry) : Option (Nat × Nat) :=
  match col.find? (fun e => e.seqId == refSeq) with
  | none => none
  | some re =>
    match re.bases with
    | [] => none
    | b :: _ =>
      let targetNuc := toLowerCh b
      let final := col.foldl (stepEntry targetNuc) colInit
      some (final.nIdentical, final.nAligned)

/-- The genomes that receive an n_aligned increment while the loop walks a
column, in iteration order, starting from a given last-counted genome:
an entry is counted exactly when it is nonempty and its genome differs
from the previously counted genome (the adjacency-based duplicate
collapsing of halIdentity.cpp lines 288-295). -/
def countedGenomes : Option Nat → List ColEntry → List Nat
  | _, [] => []
  | last, e :: es =>
    match e.bases with
    | [] => countedGenomes last es
    | _ :: _ =>
      if last = some e.genome then countedGenomes last es
      else e.genome :: countedGenomes (some e.genome) es

/-- The genomes that receive an n_identical increment while the loop
walks a column (the counted entries whose lowercased first base equals
the target nucleotide, halIdentity.cpp lines 297-299). -/
def countedIdentical (targetNuc : Char) : Option Nat → List ColEntry → List Nat
  | _, [] => []
  | last, e :: es =>
    match e.bases with
    | [] => countedIdentical targetNuc last es
    | b :: _ =>
      if last = some e.genome then countedIdentical targetNuc last es
      else if toLowerCh b = targetNuc then
        e.genome :: countedIdentical targetNuc (some e.genome) es
      else countedIdentical targetNuc (some e.genome) es

/-- The genome word of a column: genomes of the nonempty entries in
iteration order. -/
def nonEmptyGenomes (col : List ColEntry) : List Nat :=
  (col.filter (fun e => !e.bases.isEmpty)).map (fun e => e.genome)

/-- Adjacent deduplication of a word, starting from an optional previous
letter: the letters that survive the adjacency skip of the column loop. -/
def adjDedup : Option Nat → List Nat → List Nat
  | _, [] => []
  | last, x :: xs => if last = some x then adjDedup last xs else x :: adjDedup (some x) xs

/-- One reference sequence (chromosome) of the scanned genome: its name,
its map key in column maps, getSequenceLength() and getStartPosition()
(the genome-relative offset of its first base). -/
structure SeqInfo where
  name : String
  sid : Nat
  len : Nat
  startPos : Nat
deriving Repr, DecidableEq

/-- Modelled from the spec: the column-iterator abstraction (an external
collaborator of this core, consumed as an interface; its implementation is
not under src/).  colAt p is the column map the iterator presents at
genome-relative position p; lastCol p is what lastColumn() reports after
the column at p has been read.  toRight, toSite and defragment move the
iterator between positions and do not change the column presented at a
position, so a positional oracle captures the interface. -/
structure ScanEnv where
  colAt : Nat → List ColEntry
  lastCol : Nat → Bool

/-- How a depth-scan call can fail: the explicit range check
(hal_exception at halIdentity.cpp lines 236-240 and 349-353), a fault
while reading a column (processColumn = none), or — for the fuel-indexed
loop below — exhaustion of the iteration budget, which stands for
non-termination of the C++ while loop. -/
inductive ScanErr where
  | range
  | badColumn
  | fuelOut
deriving Repr, DecidableEq

/-- One emitted row: the genome-relative position of the column and the
two counter values written to the n_identical and n_aligned tracks. -/
abbrev ScanRow := Nat × Nat × Nat

/-- The printSequence scan loop (halIdentity.cpp lines 273-330): while
pos <= last, process the column at pos and emit both counters, stop after
emitting if the iterator reports the last column, otherwise advance pos
by step (uint64 arithmetic) and continue.  fuel bounds the number of
iterations; running out of fuel models a loop that fails to terminate. -/
def scanLoop (env : ScanEnv) (refSeq step last : Nat) :
    Nat → Nat → Except ScanErr (List ScanRow)
  | fuel, pos =>
    if pos ≤ last then
      match fuel with
      | 0 => .error .fuelOut
      | fuel + 1 =>
        match processColumn refSeq (env.colAt pos) with
        | none => .error .badColumn
        | some c =>
          if env.lastCol pos then .ok [(pos, c)]
          else
            match scanLoop env refSeq step last fuel ((pos + step) % W) with
            | .error e => .error e
            | .ok rest => .ok ((pos, c) :: rest)
    else .ok []

/-- printSequence (halIdentity.cpp lines 221-331).  Returns none inside ok
for the early return on a zero-length sequence (line 227, nothing is
emitted); otherwise substitutes length = 0 by the distance to the end of
the sequence in uint64 arithmetic (line 233), raises the range error when
start + length exceeds the sequence length (lines 235-240), converts to
genome coordinates (lines 271-272) and runs the scan loop, returning the
fixedStep header data (sequence name, 1-based start, step; lines 265-266)
and the emitted rows, shared by both output tracks.  countDupes and
noAncestors are accepted exactly as in the source: countDupes is never
read, noAncestors is only forwarded to the external iterator already
abstracted by env. -/
def printSequenceM (env : ScanEnv) (seq : SeqInfo)
    (start length step : Nat) (countDupes noAncestors : Bool) :
    Except ScanErr (Option ((String × Nat × Nat) × List ScanRow)) :=
  if seq.len = 0 then .ok none
  else
    let len := if length = 0 then sub64 seq.len start else length
    let last := (start + len) % W
    if last > seq.len then .error .range
    else
      let pos := (start + seq.startPos) % W
      let glast := (last + seq.startPos) % W
      match scanLoop env seq.sid step glast (glast + 2 - pos) pos with
      | .error e => .error e
      | .ok rows => .ok (some ((seq.name, (start + 1) % W, step), rows))

/-- The per-sequence loop of printGenome (halIdentity.cpp lines 358-371):
walk the sequences in order, intersect each with the requested range via
the guard on line 364, derive the sequence-relative sub-range (lines
365-367), recurse into printSequence and accumulate runningLength.
length here is the already-substituted genome-level length. -/
def printGenomeSeqs (env : ScanEnv) (seqs : List SeqInfo)
    (start length step : Nat) (countDupes noAncestors : Bool) (runningLength : Nat) :
    Except ScanErr (List (Option ((String × Nat × Nat) × List ScanRow))) :=
  match seqs with
  | [] => .ok []
  | s :: rest =>
    if (start + length) % W ≥ s.startPos ∧ start < (s.startPos + s.len) % W ∧
        runningLength < length then
      let readStart := if s.startPos ≥ start then 0 else start - s.startPos
      let readLen := min (s.len - readStart) length
      let readLen := min readLen (length - runningLength)
      match printSequenceM env s readStart readLen step countDupes noAncestors with
      | .error e => .error e
      | .ok out =>
        match printGenomeSeqs env rest start length step countDupes noAncestors
            ((runningLength + readLen) % W) with
        | .error e => .error e
        | .ok outs => .ok (out :: outs)
    else printGenomeSeqs env rest start length step countDupes noAncestors runningLength

/-- The scanned genome: getSequenceLength() (total length, all sequences
concatenated) and its sequences in getSequenceIterator() order. -/
structure GenomeInfo where
  len : Nat
  seqs : List SeqInfo

/-- printGenome (halIdentity.cpp lines 341-373): with a reference sequence
the call is forwarded to printSequence unchanged; without one the genome
range check start + length > genome length runs first (lines 349-353,
before the length = 0 substitution on lines 354-356), then the range is
decomposed over the sequences. -/
def printGenomeM (env : ScanEnv) (genome : GenomeInfo) (sequence : Option SeqInfo)
    (start length step : Nat) (countDupes noAncestors : Bool) :
    Except ScanErr (List (Option ((String × Nat × Nat) × List ScanRow))) :=
  match sequence with
  | some s =>
    (printSequenceM env s start length step countDupes noAncestors).map (fun o => [o])
  | none =>
    if (start + length) % W > genome.len then .error .range
    else
      let len := if length = 0 then sub64 genome.len start else length
      printGenomeSeqs env genome.seqs start len step countDupes noAncestors 0

/-- Modelled from the spec: a sonLib stTree node (external collaborator;
the tree data structure itself is out of scope and consumed through
stTree_construct / setLabel / setParent / setBranchLength / getChild).
A node carries an optional label (stTree_construct leaves it NULL), an
optional branch length to its parent (unset until setBranchLength) and
its ordered children; setParent appends the child to the parent. -/
inductive STree where
  | node : Option String → Option ℚ → List STree → STree
deriving Repr

/-- Label of a tree node. -/
def STree.label : STree → Option String
  | .node l _ _ => l

/-- Branch length of a tree node (to its parent). -/
def STree.branchLength : STree → Option ℚ
  | .node _ b _ => b

/-- Children of a tree node. -/
def STree.children : STree → List STree
  | .node _ _ c => c

/-- stTree_setBranchLength on a node. -/
def STree.setBranchLength : STree → ℚ → STree
  | .node l _ c, b => .node l (some b) c

/-- stTree_construct(): a fresh node with NULL label, no branch length and
no children — the placeholder tree loadTree builds for an empty stored
tree string (hdf5Alignment.cpp line 421). -/
def placeholderTree : STree := .node none none []

mutual

/-- Number of nodes of a tree. -/
def STree.countNodes : STree → Nat
  | .node _ _ cs => 1 + countNodesList cs

/-- Number of nodes of a forest. -/
def countNodesList : List STree → Nat
  | [] => 0
  | t :: ts => t.countNodes + countNodesList ts

end

mutual

/-- The labels of a tree in preorder (the names addNodeToMap collects,
hdf5Alignment.cpp lines 393-405; unlabeled nodes are skipped — the C++
asserts labels are present on parsed trees). -/
def treeLabels : STree → List String
  | .node l _ cs =>
    (match l with | none => [] | some s => [s]) ++ treeLabelsList cs

/-- The labels of a forest in preorder. -/
def treeLabelsList : List STree → List String
  | [] => []
  | t :: ts => treeLabels t ++ treeLabelsList ts

end

mutual

/-- First node with the given label, in preorder. -/
def findNode : STree → String → Option STree
  | .node l b cs, p => if l = some p then some (.node l b cs) else findNodeList cs p

/-- First node with the given label in a forest, in preorder. -/
def findNodeList : List STree → String → Option STree
  | [], _ => none
  | t :: ts, p =>
    match findNode t p with
    | some q => some q
    | none => findNodeList ts p

end

mutual

/-- stTree_setParent(child, parent) where parent is the first node with
the given label, in preorder: append child to the children of that node.
The C++ reaches the parent through the pointer stored in _nodeMap; since
the store never lets two nodes share a name, that pointer is the unique —
hence the first — node with that label.  The Bool records whether the
parent was found (always true on the states the store reaches). -/
def insertChildF : STree → String → STree → STree × Bool
  | .node l b cs, p, c =>
    if l = some p then (.node l b (cs ++ [c]), true)
    else
      let r := insertChildList cs p c
      (.node l b r.1, r.2)

/-- insertChildF over a forest: rewrite the first subtree containing the
label and keep the rest unchanged. -/
def insertChildList : List STree → String → STree → List STree × Bool
  | [], _, _ => ([], false)
  | t :: ts, p, c =>
    let r := insertChildF t p c
    if r.2 then (r.1 :: ts, true)
    else
      let rs := insertChildList ts p c
      (t :: rs.1, rs.2)

end

/-- Numerator/denominator rendering of a branch length, used only to give
the newick serializer concrete output. -/
def ratStr (q : ℚ) : String := toString q.num ++ "/" ++ toString q.den

mutual

/-- Modelled from the spec: sonLib stTree_getNewickTreeString (external;
the tree-string grammar is explicitly out of scope, the spec only requires
that serialization produce a textual form of the current structure).
Children in parentheses, then the label, then the branch length. -/
def stTreeNewick : STree → String
  | .node l b cs =>
    (if cs.isEmpty then "" else "(" ++ newickForest cs ++ ")")
      ++ (match l with | none => "" | some s => s)
      ++ (match b with | none => "" | some q => ":" ++ ratStr q)

/-- Comma-separated newick rendering of a forest. -/
def newickForest : List STree → String
  | [] => ""
  | [t] => stTreeNewick t
  | t :: ts => stTreeNewick t ++ "," ++ newickForest ts

end

/-- An open HDF5Genome handle: an instance identity (distinct for every
object the store allocates with new) and its payload.  Modelled from the
spec: the payload of a genome (sequences and columnar data, opaque to
this core) is a single abstract datum; HDF5Genome::read fills it from the
container and HDF5Genome::write persists it (hdf5Genome.cpp is not under
src/). -/
structure GenomeH where
  instId : Nat
  payload : Nat
deriving Repr, DecidableEq

/-- The payload of a genome created by addLeafGenome / addRootGenome:
fresh and empty, never read from storage. -/
def emptyPayload : Nat := 0

/-- The state of an HDF5Alignment object together with the persistent
container it owns.  fileOpen models _file != NULL; fileTree the tree
string persisted under the Phylogeny group; fileGenomes the persisted
genome payloads; metaLoaded models _metaData != NULL; tree is _tree;
nodeMap the key set of _nodeMap (name → stTree pointer; the pointer is
recovered from the tree by label, labels being unique on states the
store reaches); openGenomes is _openGenomes; dirty is _dirty; nextId
feeds instance identities for new. -/
structure AlignState where
  fileOpen : Bool
  fileTree : String
  fileGenomes : String → Nat
  metaLoaded : Bool
  tree : Option STree
  nodeMap : List String
  openGenomes : List (String × GenomeH)
  dirty : Bool
  nextId : Nat

/-- The freshly constructed HDF5Alignment (hdf5Alignment.cpp lines 28-59):
no file, no metadata, no tree, clean. -/
def initState : AlignState where
  fileOpen := false
  fileTree := ""
  fileGenomes := fun _ => 0
  metaLoaded := false
  tree := none
  nodeMap := []
  openGenomes := []
  dirty := false
  nextId := 0

/-- The error kinds of the spec (section 7), mapped one-to-one onto the
throw sites of hdf5Alignment.cpp. -/
inductive HalErr where
  | invalidArgument
  | duplicateName
  | notFound
  | invariantViolation
deriving Repr, DecidableEq

/-- The string writeTree persists: the newick serialization of the tree,
or the empty string for a NULL tree (lines 377-386). -/
def newickOfTree : Option STree → String
  | none => ""
  | some t => stTreeNewick t

/-- HDF5Alignment::writeTree (lines 372-391): return immediately unless
dirty, otherwise persist the newick string of the tree (the empty string
when _tree is NULL).  Note the function does not touch _dirty. -/
def writeTree (s : AlignState) : AlignState :=
  if s.dirty = false then s
  else { s with fileTree := newickOfTree s.tree }

/-- The write-back over _openGenomes performed by close (lines 117-123):
every cached genome persists its payload. -/
def writeBackGenomes (fg : String → Nat) (gs : List (String × GenomeH)) : String → Nat :=
  gs.foldl (fun f ng => fun n => if n = ng.1 then ng.2.payload else f n) fg

/-- HDF5Alignment::close (lines 98-135): when a file is open, flush the
tree via writeTree, destruct _tree, write and drop the metadata, write
back and free every open genome, clear _openGenomes, and release the
file; when no file is open, do nothing (the source asserts _tree == NULL
and _openGenomes empty there).  _nodeMap is left untouched — exactly as
in the source, which never clears it here. -/
def close (s : AlignState) : AlignState :=
  if s.fileOpen then
    let s1 := writeTree s
    { s1 with
      tree := none
      metaLoaded := false
      fileGenomes := writeBackGenomes s1.fileGenomes s1.openGenomes
      openGenomes := []
      fileOpen := false }
  else s

/-- The defensive assertions of the idle branch of close (lines 132-133). -/
def closeIdleAssert (s : AlignState) : Prop :=
  s.fileOpen = false → (s.tree = none ∧ s.openGenomes = [])

/-- HDF5Alignment::createNew (lines 66-78): close any prior state,
truncate the container (fresh groups, nothing persisted), install fresh
metadata, set _tree to NULL and mark dirty.  _nodeMap is not cleared —
exactly as in the source. -/
def createNew (s : AlignState) : AlignState :=
  let s1 := close s
  { s1 with
    fileOpen := true
    fileTree := ""
    fileGenomes := fun _ => 0
    metaLoaded := true
    tree := none
    dirty := true }

/-- The contents of a persisted alignment file handed to open: the stored
tree string and the stored genome payloads. -/
structure HalFile where
  treeString : String
  genomes : String → Nat

/-- HDF5Alignment::loadTree (lines 407-428): clear _nodeMap, read the
stored tree string, drop any previous tree; an empty string yields the
placeholder stTree_construct() node and leaves the node map empty, a
nonempty string is parsed (parse stands for the external sonLib newick
reading, out of scope) and its labels collected by addNodeToMap. -/
def loadTree (parse : String → STree) (s : AlignState) : AlignState :=
  let s1 := { s with nodeMap := [] }
  if s1.fileTree = "" then { s1 with tree := some placeholderTree }
  else
    let t := parse s1.fileTree
    { s1 with tree := some t, nodeMap := treeLabels t }

/-- HDF5Alignment::open (lines 81-96): close any prior state, attach the
requested container, load metadata, and load the tree.  _dirty is not
touched. -/
def openStore (parse : String → STree) (s : AlignState) (f : HalFile) : AlignState :=
  let s1 := close s
  let s2 := { s1 with
    fileOpen := true
    fileTree := f.treeString
    fileGenomes := f.genomes
    metaLoaded := true }
  loadTree parse s2

/-- std::map::insert into _openGenomes: keeps the existing entry when the
key is already present (lines 163, 191, 215). -/
def cacheInsert (k : String) (g : GenomeH) (m : List (String × GenomeH)) :
    List (String × GenomeH) :=
  if (m.lookup k).isSome then m else (k, g) :: m

/-- HDF5Alignment::addRootGenome (lines 168-194): reject an empty name,
reject a name already in _nodeMap; otherwise build a fresh labeled node,
and when a tree exists make the old root its child carrying branchLength
(stTree_setParent then stTree_setBranchLength on the old root); the new
node becomes _tree, the name enters _nodeMap, a fresh genome with empty
payload enters the cache, and the store is marked dirty. -/
def addRootGenome (s : AlignState) (name : String) (branchLength : ℚ) :
    Except HalErr (GenomeH × AlignState) :=
  if name = "" then .error .invalidArgument
  else if name ∈ s.nodeMap then .error .duplicateName
  else
    let newRoot : STree :=
      match s.tree with
      | none => .node (some name) none []
      | some t => .node (some name) none [t.setBranchLength branchLength]
    let genome : GenomeH := ⟨s.nextId, emptyPayload⟩
    .ok (genome,
      { s with
        tree := some newRoot
        nodeMap := name :: s.nodeMap
        openGenomes := cacheInsert name genome s.openGenomes
        dirty := true
        nextId := s.nextId + 1 })

/-- HDF5Alignment::addLeafGenome (lines 137-166): reject an empty name or
parent name, reject a name already in _nodeMap, reject a parent missing
from _nodeMap; otherwise attach a fresh labeled node with the given
branch length under the parent node (reached in the source through the
_nodeMap pointer, here by its unique label), insert the name into
_nodeMap, create a fresh genome with empty payload in the cache, and
mark the store dirty. -/
def addLeafGenome (s : AlignState) (name parentName : String) (branchLength : ℚ) :
    Except HalErr (GenomeH × AlignState) :=
  if name = "" ∨ parentName = "" then .error .invalidArgument
  else if name ∈ s.nodeMap then .error .duplicateName
  else if parentName ∉ s.nodeMap then .error .notFound
  else
    let child : STree := .node (some name) (some branchLength) []
    let genome : GenomeH := ⟨s.nextId, emptyPayload⟩
    .ok (genome,
      { s with
        tree := s.tree.map (fun t => (insertChildF t parentName child).1)
        nodeMap := name :: s.nodeMap
        openGenomes := cacheInsert name genome s.openGenomes
        dirty := true
        nextId := s.nextId + 1 })

/-- HDF5Alignment::openGenome (lines 220-235): a cached genome is returned
as is; otherwise a name known to _nodeMap is materialized by reading its
payload from the container and cached; an unknown name yields NULL. -/
def openGenome (s : AlignState) (name : String) : Option GenomeH × AlignState :=
  match s.openGenomes.lookup name with
  | some g => (some g, s)
  | none =>
    if name ∈ s.nodeMap then
      let g : GenomeH := ⟨s.nextId, s.fileGenomes name⟩
      (some g,
        { s with
          openGenomes := cacheInsert name g s.openGenomes
          nextId := s.nextId + 1 })
    else (none, s)

/-- HDF5Alignment::closeGenome (lines 237-249): closing a genome that is
not cached is an invariant violation; otherwise its payload is written
back to the container, the instance freed and the cache entry erased. -/
def closeGenome (s : AlignState) (name : String) : Except HalErr AlignState :=
  match s.openGenomes.lookup name with
  | none => .error .invariantViolation
  | some g =>
    .ok { s with
      fileGenomes := fun n => if n = name then g.payload else s.fileGenomes n
      openGenomes := s.openGenomes.eraseP (fun ng => ng.1 == name) }

/-- HDF5Alignment::getNumGenomes (lines 334-345): 0 for a NULL tree, the
size of _nodeMap otherwise. -/
def getNumGenomes (s : AlignState) : Nat :=
  match s.tree with
  | none => 0
  | some _ => s.nodeMap.length

/-- The assertion inside getNumGenomes (line 338): a NULL tree must come
with an empty node map. -/
def numGenomesAssert (s : AlignState) : Prop :=
  s.tree = none → s.nodeMap = []

/-! ### Shared concrete states and environments used by several claims -/

/-- A trivial scan environment: every column is empty. -/
def envEmpty : ScanEnv := ⟨fun _ => [], fun _ => false⟩

/-- A scan environment whose every column holds exactly the reference
entry (sequence key 0, genome 0, base a). -/
def envRefOnly : ScanEnv := ⟨fun _ => [⟨0, 0, ['a']⟩], fun _ => false⟩

/-- A ten-base reference sequence at the start of its genome. -/
def seqS : SeqInfo := ⟨"s", 0, 10, 0⟩

/-- The trivial stand-in for the external newick reader: never invoked on
the states the claims exercise (they only load the empty tree string). -/
def parseTrivial : String → STree := fun _ => placeholderTree

/-- An empty persisted alignment file: empty tree string, zero payloads. -/
def fileEmpty : HalFile := ⟨"", fun _ => 0⟩

/-- The store after createNew and addRootGenome A (branch length 1). -/
def stateRootA : AlignState :=
  match addRootGenome (createNew initState) "A" 1 with
  | .ok (_, s) => s
  | .error _ => initState

/-- stateRootA after closeGenome A. -/
def stateRootAClosed : AlignState :=
  match closeGenome stateRootA "A" with
  | .ok s => s
  | .error _ => initState

/-- A store that loaded the empty stored tree string: the TreeIndex node
map is empty but _tree is the stTree_construct() placeholder. -/
def loadedEmptyState : AlignState := openStore parseTrivial initState fileEmpty

/-! ### Column-counting lemmas (C8) -/

theorem foldl_stepEntry_nAligned (targetNuc : Char) :
    ∀ (col : List ColEntry) (st : ColSt), st.nAligned < W →
      (col.foldl (stepEntry targetNuc) st).nAligned
        = (st.nAligned + (countedGenomes st.lastGenome col).length) % W
  | [], st, h => by
    simp [countedGenomes, Nat.mod_eq_of_lt h]
  | e :: es, st, h => by
    rcases hb : e.bases with _ | ⟨b, bs⟩
    · have ih := foldl_stepEntry_nAligned targetNuc es st h
      simp only [List.foldl_cons, stepEntry, hb, countedGenomes]
      exact ih
    · by_cases hg : st.lastGenome = some e.genome
      · have ih := foldl_stepEntry_nAligned targetNuc es st h
        simp only [List.foldl_cons, stepEntry, hb, countedGenomes, hg, if_pos]
        simpa [hg] using ih
      · have hlt : (st.nAligned + 1) % W < W := Nat.mod_lt _ (by decide)
        have ih := foldl_stepEntry_nAligned targetNuc es
          ⟨(if toLowerCh b = targetNuc then (st.nIdentical + 1) % W else st.nIdentical),
           (st.nAligned + 1) % W, some e.genome⟩ hlt
        simp only [List.foldl_cons, stepEntry, hb, if_neg hg]
        rw [ih]
        simp only [countedGenomes, hb, if_neg hg, List.length_cons]
        rw [Nat.mod_add_mod]
        congr 1
        omega

theorem foldl_stepEntry_nIdentical (targetNuc : Char) :
    ∀ (col : List ColEntry) (st : ColSt), st.nIdentical < W →
      (col.foldl (stepEntry targetNuc) st).nIdentical
        = (st.nIdentical + (countedIdentical targetNuc st.lastGenome col).length) % W
  | [], st, h => by
    simp [countedIdentical, Nat.mod_eq_of_lt h]
  | e :: es, st, h => by
    rcases hb : e.bases with _ | ⟨b, bs⟩
    · have ih := foldl_stepEntry_nIdentical targetNuc es st h
      simp only [List.foldl_cons, stepEntry, hb, countedIdentical]
      exact ih
    · by_cases hg : st.lastGenome = some e.genome
      · have ih := foldl_stepEntry_nIdentical targetNuc es st h
        simp only [List.foldl_cons, stepEntry, hb, countedIdentical, hg, if_pos]
        simpa [hg] using ih
      · by_cases hm : toLowerCh b = targetNuc
        · have hlt : (st.nIdentical + 1) % W < W := Nat.mod_lt _ (by decide)
          have ih := foldl_stepEntry_nIdentical targetNuc es
            ⟨(st.nIdentical + 1) % W, (st.nAligned + 1) % W, some e.genome⟩ hlt
          simp only [List.foldl_cons, stepEntry, hb, if_neg hg, if_pos hm]
          rw [ih]
          simp only [countedIdentical, hb, if_neg hg, if_pos hm, List.length_cons]
          rw [Nat.mod_add_mod]
          congr 1
          omega
        · have ih := foldl_stepEntry_nIdentical targetNuc es
            ⟨st.nIdentical, (st.nAligned + 1) % W, some e.genome⟩ h
          simp only [List.foldl_cons, stepEntry, hb, if_neg hg, if_neg hm]
          rw [ih]
          simp only [countedIdentical, hb, if_neg hg, if_neg hm]

theorem countedGenomes_eq_adjDedup :
    ∀ (col : List ColEntry) (last : Option Nat),
      countedGenomes last col = adjDedup last (nonEmptyGenomes col)
  | [], last => by simp [countedGenomes, nonEmptyGenomes, adjDedup]
  | e :: es, last => by
    rcases hb : e.bases with _ | ⟨b, bs⟩
    · simp only [countedGenomes, hb, nonEmptyGenomes, List.filter_cons, hb]
      simpa [nonEmptyGenomes, List.isEmpty_nil, hb] using countedGenomes_eq_adjDedup es last
    · by_cases hg : last = some e.genome
      · simp only [countedGenomes, hb, if_pos hg]
        rw [countedGenomes_eq_adjDedup es last]
        simp [nonEmptyGenomes, List.filter_cons, hb, adjDedup, hg]
      · simp only [countedGenomes, hb, if_neg hg]
        rw [countedGenomes_eq_adjDedup es (some e.genome)]
        simp [nonEmptyGenomes, List.filter_cons, hb, adjDedup, hg]

theorem mem_adjDedup {g : Nat} :
    ∀ (last : Option Nat) (l : List Nat), g ∈ adjDedup last l → g ∈ l
  | _, [], h => by simp [adjDedup] at h
  | last, x :: xs, h => by
    by_cases hx : last = some x
    · simp only [adjDedup, if_pos hx] at h
      exact List.mem_cons_of_mem _ (mem_adjDedup last xs h)
    · simp only [adjDedup, if_neg hx, List.mem_cons] at h
      rcases h with h | h
      · simp [h]
      · exact List.mem_cons_of_mem _ (mem_adjDedup (some x) xs h)

theorem count_adjDedup_of_not_mem {g : Nat} {l : List Nat} (last : Option Nat)
    (h : g ∉ l) : (adjDedup last l).count g = 0 :=
  List.count_eq_zero.mpr (fun hm => h (mem_adjDedup last l hm))

theorem adjDedup_replicate_absorb (g : Nat) :
    ∀ (k : Nat) (b : List Nat),
      adjDedup (some g) (List.replicate k g ++ b) = adjDedup (some g) b
  | 0, b => by simp
  | k + 1, b => by
    simp only [List.replicate_succ, List.cons_append, adjDedup, if_pos rfl]
    exact adjDedup_replicate_absorb g k b

theorem count_adjDedup_replicate (g : Nat) :
    ∀ (k : Nat) (last : Option Nat) (b : List Nat), g ∉ b →
      (adjDedup last (List.replicate k g ++ b)).count g ≤ 1
  | 0, last, b, hb => by
    simp only [List.replicate, List.nil_append]
    simp [count_adjDedup_of_not_mem last hb]
  | k + 1, last, b, hb => by
    by_cases hl : last = some g
    · subst hl
      have hgoal : adjDedup (some g) (List.replicate (k + 1) g ++ b)
          = adjDedup (some g) (List.replicate k g ++ b) := by
        rw [List.replicate_succ, List.cons_append]
        simp [adjDedup]
      rw [hgoal]
      exact count_adjDedup_replicate g k (some g) b hb
    · have hck : adjDedup last (List.replicate (k + 1) g ++ b)
          = g :: adjDedup (some g) b := by
        rw [List.replicate_succ, List.cons_append]
        simp only [adjDedup, if_neg hl]
        rw [adjDedup_replicate_absorb g k b]
      rw [hck]
      simp [List.count_cons, count_adjDedup_of_not_mem (some g) hb]

theorem count_adjDedup_block (g : Nat) (k : Nat) (b : List Nat) (hb : g ∉ b) :
    ∀ (a : List Nat) (last : Option Nat), g ∉ a →
      (adjDedup last (a ++ List.replicate k g ++ b)).count g ≤ 1
  | [], last, _ => by
    simpa using count_adjDedup_replicate g k last b hb
  | x :: a, last, ha => by
    have hxg : x ≠ g := fun h => ha (by simp [h])
    have ha2 : g ∉ a := fun h => ha (List.mem_cons_of_mem _ h)
    by_cases hx : last = some x
    · simp only [List.cons_append, adjDedup, if_pos hx]
      exact count_adjDedup_block g k b hb a last ha2
    · simp only [List.cons_append, adjDedup, if_neg hx]
      have := count_adjDedup_block g k b hb a (some x) ha2
      simpa [List.count_cons, Ne.symm hxg] using this

theorem countedIdentical_count_le (targetNuc : Char) (g : Nat) :
    ∀ (col : List ColEntry) (last : Option Nat),
      (countedIdentical targetNuc last col).count g ≤ (countedGenomes last col).count g
  | [], last => by simp [countedIdentical, countedGenomes]
  | e :: es, last => by
    rcases hb : e.bases with _ | ⟨b, bs⟩
    · simp only [countedIdentical, countedGenomes, hb]
      exact countedIdentical_count_le targetNuc g es last
    · by_cases hg : last = some e.genome
      · simp only [countedIdentical, countedGenomes, hb, if_pos hg]
        exact countedIdentical_count_le targetNuc g es last
      · by_cases hm : toLowerCh b = targetNuc
        · simp only [countedIdentical, countedGenomes, hb, if_neg hg, if_pos hm,
            List.count_cons]
          have := countedIdentical_count_le targetNuc g es (some e.genome)
          omega
        · simp only [countedIdentical, countedGenomes, hb, if_neg hg, if_neg hm,
            List.count_cons]
          have := countedIdentical_count_le targetNuc g es (some e.genome)
          omega

/-! ### Claim theorems about the per-column counters (C1, C8) -/

/-- C1: falsified by the source.  For the column holding only the
reference genome entry both emitted values are indeed 0, but the source
achieves this by initializing both hal_size_t counters to -1, that is
2 ^ 64 - 1, and then counting the reference entry like any other, the
increment wrapping mod 2 ^ 64 back to 0 (halIdentity.cpp lines 275-299).
The counters do not start at zero, the reference entry is not excluded by
a skip condition, and an intermediate counter value does wrap. -/
theorem selfColumnCountersUseWraparound :
    processColumn 0 [⟨0, 0, ['a']⟩] = some (0, 0) ∧
    colInit.nIdentical = W - 1 ∧
    colInit.nAligned = W - 1 ∧
    W - 1 ≠ 0 ∧
    stepEntry 'a' colInit ⟨0, 0, ['a']⟩ = ⟨0, 0, some 0⟩ ∧
    colInit.nAligned + 1 = W :=
  ⟨rfl, rfl, rfl, by decide, rfl, by decide⟩

/-- C8 counterexample: in a column whose iteration order interleaves
genome 1 around genome 2 (reference genome 0 first), genome 1 receives
two n_aligned increments and two n_identical increments, and the emitted
counters are (3, 3) although only two distinct non-reference genomes
appear — so a non-reference genome can contribute more than 1 when its
entries are not adjacent. -/
theorem nonAdjacentDuplicateCex :
    (countedGenomes none
      [⟨0, 0, ['a']⟩, ⟨1, 1, ['a']⟩, ⟨2, 2, ['a']⟩, ⟨3, 1, ['a']⟩]).count 1 = 2 ∧
    (countedIdentical 'a' none
      [⟨0, 0, ['a']⟩, ⟨1, 1, ['a']⟩, ⟨2, 2, ['a']⟩, ⟨3, 1, ['a']⟩]).count 1 = 2 ∧
    processColumn 0
      [⟨0, 0, ['a']⟩, ⟨1, 1, ['a']⟩, ⟨2, 2, ['a']⟩, ⟨3, 1, ['a']⟩] = some (3, 3) ∧
    (([(⟨0, 0, ['a']⟩ : ColEntry), ⟨1, 1, ['a']⟩, ⟨2, 2, ['a']⟩, ⟨3, 1, ['a']⟩].filter
        (fun e => !e.bases.isEmpty && e.genome != 0)).map (fun e => e.genome)).dedup.length
      = 2 :=
  ⟨by decide, by decide, rfl, by decide⟩

/-- C8 (amended): the n_aligned increments of a column are exactly one
per maximal run of adjacent nonempty entries of the same genome: the
counter value after the fold adds the length of countedGenomes, the
counted list is the adjacent deduplication of the column genome word, a
genome all of whose nonempty entries are adjacent in the iteration order
is counted at most once, and its n_identical contribution never exceeds
its n_aligned contribution.  (With non-adjacent entries a genome can be
counted once per run, as the counterexample shows.) -/
theorem genomeContributionAdjacency :
    (∀ (targetNuc : Char) (col : List ColEntry) (st : ColSt),
      st.nIdentical < W → st.nAligned < W →
      (col.foldl (stepEntry targetNuc) st).nAligned
          = (st.nAligned + (countedGenomes st.lastGenome col).length) % W ∧
      (col.foldl (stepEntry targetNuc) st).nIdentical
          = (st.nIdentical + (countedIdentical targetNuc st.lastGenome col).length) % W) ∧
    (∀ (col : List ColEntry) (last : Option Nat),
      countedGenomes last col = adjDedup last (nonEmptyGenomes col)) ∧
    (∀ (g : Nat) (a : List Nat) (k : Nat) (b : List Nat) (last : Option Nat),
      g ∉ a → g ∉ b →
      (adjDedup last (a ++ List.replicate k g ++ b)).count g ≤ 1) ∧
    (∀ (targetNuc : Char) (col : List ColEntry) (last : Option Nat) (g : Nat),
      (countedIdentical targetNuc last col).count g ≤ (countedGenomes last col).count g) :=
  ⟨fun t col st h1 h2 =>
    ⟨foldl_stepEntry_nAligned t col st h2, foldl_stepEntry_nIdentical t col st h1⟩,
   countedGenomes_eq_adjDedup,
   fun g a k b last ha hb => count_adjDedup_block g k b hb a last ha,
   fun t col last g => countedIdentical_count_le t g col last⟩

/-- C8 witness: the amended bound applied at a concrete column word whose
genome-1 entries are adjacent. -/
theorem genomeContributionWitness :
    (adjDedup none ([0] ++ List.replicate 2 1 ++ [2])).count 1 ≤ 1 :=
  genomeContributionAdjacency.2.2.1 1 [0] 2 [2] none (by decide) (by decide)

/-! ### Scan-loop lemmas (C9, C5, C10) -/

theorem scanLoop_unfold (env : ScanEnv) (refSeq step last fuel pos : Nat) :
    scanLoop env refSeq step last fuel pos =
      if pos ≤ last then
        match fuel with
        | 0 => .error .fuelOut
        | fuel + 1 =>
          match processColumn refSeq (env.colAt pos) with
          | none => .error .badColumn
          | some c =>
            if env.lastCol pos then .ok [(pos, c)]
            else
              match scanLoop env refSeq step last fuel ((pos + step) % W) with
              | .error e => .error e
              | .ok rest => .ok ((pos, c) :: rest)
      else .ok [] := by
  rw [scanLoop.eq_def]

theorem scanLoop_of_gt (env : ScanEnv) (refSeq step last fuel pos : Nat)
    (h : ¬ pos ≤ last) : scanLoop env refSeq step last fuel pos = .ok [] := by
  rw [scanLoop_unfold, if_neg h]

theorem scanLoop_ne_range (env : ScanEnv) (refSeq step last : Nat) :
    ∀ (fuel pos : Nat), scanLoop env refSeq step last fuel pos ≠ .error .range := by
  intro fuel
  induction fuel with
  | zero =>
    intro pos
    rw [scanLoop_unfold]
    split
    · simp
    · simp
  | succ fuel ih =>
    intro pos
    rw [scanLoop_unfold]
    split
    · cases hc : processColumn refSeq (env.colAt pos) with
      | none => simp
      | some c =>
        simp only
        split
        · simp
        · cases hrec : scanLoop env refSeq step last fuel ((pos + step) % W) with
          | error e =>
            simp only
            intro h
            injection h with he
            subst he
            exact ih _ hrec
          | ok rest => simp
    · simp

theorem scanLoop_spec (env : ScanEnv) (refSeq step last : Nat)
    (hstep : 1 ≤ step) (hW : last + step < W) :
    ∀ (fuel pos : Nat), last + 2 ≤ fuel + pos →
      scanLoop env refSeq step last fuel pos ≠ .error .fuelOut ∧
      ∀ rows, scanLoop env refSeq step last fuel pos = .ok rows →
        (pos ≤ last → rows ≠ []) ∧
        (∀ r ∈ rows, pos ≤ r.1 ∧ r.1 ≤ last ∧
          processColumn refSeq (env.colAt r.1) = some r.2) ∧
        (∀ i : Fin rows.length, (rows.get i).1 = pos + i.1 * step) ∧
        (∀ h : rows ≠ [],
          env.lastCol (rows.getLast h).1 = true ∨ last < (rows.getLast h).1 + step) := by
  intro fuel
  induction fuel with
  | zero =>
    intro pos hfuel
    have hpos : ¬ pos ≤ last := by omega
    rw [scanLoop_of_gt env refSeq step last 0 pos hpos]
    refine ⟨by simp, ?_⟩
    intro rows h
    have hr : rows = [] := by
      injection h with h2
      exact h2.symm
    subst hr
    refine ⟨fun hp => (hpos hp).elim, by simp, ?_, fun h2 => (h2 rfl).elim⟩
    intro i
    exact absurd i.isLt (by simp)
  | succ fuel ih =>
    intro pos hfuel
    by_cases hpos : pos ≤ last
    · rw [scanLoop_unfold, if_pos hpos]
      cases hc : processColumn refSeq (env.colAt pos) with
      | none =>
        refine ⟨by simp, ?_⟩
        intro rows h
        simp at h
      | some c =>
        simp only
        cases hl : env.lastCol pos with
        | true =>
          rw [if_pos rfl]
          refine ⟨by simp, ?_⟩
          intro rows h
          have hr : rows = [(pos, c)] := by
            injection h with h2
            exact h2.symm
          subst hr
          refine ⟨by simp, ?_, ?_, ?_⟩
          · intro r hr
            rcases List.mem_singleton.mp hr with h3
            subst h3
            exact ⟨le_refl _, hpos, hc⟩
          · intro i
            rcases i with ⟨iv, hi⟩
            have hiv : iv = 0 := by
              simp at hi
              omega
            subst hiv
            simp
          · intro h2
            left
            simpa [List.getLast] using hl
        | false =>
          rw [if_neg (by simp)]
          have hps : pos + step < W := by omega
          rw [Nat.mod_eq_of_lt hps]
          have ihh := ih (pos + step) (by omega)
          cases hrec : scanLoop env refSeq step last fuel (pos + step) with
          | error e =>
            simp only
            refine ⟨?_, ?_⟩
            · intro h
              injection h with he
              subst he
              exact ihh.1 hrec
            · intro rows h
              simp at h
          | ok rest =>
            simp only
            obtain ⟨ih1, ih2, ih3, ih4⟩ := ihh.2 rest hrec
            refine ⟨by simp, ?_⟩
            intro rows h
            have hr : rows = (pos, c) :: rest := by
              injection h with h2
              exact h2.symm
            subst hr
            refine ⟨by simp, ?_, ?_, ?_⟩
            · intro r hr
              rcases List.mem_cons.mp hr with h3 | h3
              · subst h3
                exact ⟨le_refl _, hpos, hc⟩
              · obtain ⟨ha, hb2, hc2⟩ := ih2 r h3
                exact ⟨by omega, hb2, hc2⟩
            · intro i
              rcases i with ⟨iv, hi⟩
              cases iv with
              | zero => simp
              | succ j =>
                have hj : j < rest.length := by simpa using hi
                have := ih3 ⟨j, hj⟩
                simp only [List.get_cons_succ]
                simp only [List.get] at this
                rw [this, Nat.succ_mul]
                ring
            · intro h2
              by_cases hre : rest = []
              · subst hre
                right
                have : ¬ (pos + step ≤ last) := fun hle => (ih1 hle) rfl
                simpa [List.getLast] using by omega
              · rw [List.getLast_cons hre]
                exact ih4 hre
    · rw [scanLoop_of_gt env refSeq step last (fuel + 1) pos hpos]
      refine ⟨by simp, ?_⟩
      intro rows h
      have hr : rows = [] := by
        injection h with h2
        exact h2.symm
      subst hr
      refine ⟨fun hp => (hpos hp).elim, by simp, ?_, fun h2 => (h2 rfl).elim⟩
      intro i
      exact absurd i.isLt (by simp)

/-- C9: for every step size >= 1 (and operands below 2 ^ 64, as for the
machine values of the source) the scan loop terminates — with fuel
covering the range it never reports exhaustion, and neither does
printSequence with the fuel it passes; on success the rows visit
positions pos, pos + step, ... within the range, every row carries the
two counters of its processed column, and the end-of-range test runs
after the column is processed: the final emitted row is exactly the one
at which lastColumn fired (or the last in-range position of the
progression), so the last column in range is always emitted. -/
theorem scanLoopTermination :
    (∀ (env : ScanEnv) (refSeq step last fuel pos : Nat),
      1 ≤ step → last + step < W → last + 2 ≤ fuel + pos →
      scanLoop env refSeq step last fuel pos ≠ .error .fuelOut ∧
      ∀ rows, scanLoop env refSeq step last fuel pos = .ok rows →
        (pos ≤ last → rows ≠ []) ∧
        (∀ r ∈ rows, pos ≤ r.1 ∧ r.1 ≤ last ∧
          processColumn refSeq (env.colAt r.1) = some r.2) ∧
        (∀ i : Fin rows.length, (rows.get i).1 = pos + i.1 * step) ∧
        (∀ h : rows ≠ [],
          env.lastCol (rows.getLast h).1 = true ∨ last < (rows.getLast h).1 + step)) ∧
    (∀ (env : ScanEnv) (seq : SeqInfo) (start length step : Nat) (cd na : Bool),
      1 ≤ step → seq.len + seq.startPos + step < W →
      printSequenceM env seq start length step cd na ≠ .error .fuelOut) := by
  constructor
  · intro env refSeq step last fuel pos hstep hW hfuel
    exact scanLoop_spec env refSeq step last hstep hW fuel pos hfuel
  · intro env seq start length step cd na hstep hbound
    unfold printSequenceM
    by_cases hz : seq.len = 0
    · simp [hz]
    · rw [if_neg hz]
      set len := if length = 0 then sub64 seq.len start else length with hlen
      set last := (start + len) % W with hlast
      by_cases hr : last > seq.len
      · simp [hr]
      · rw [if_neg hr]
        set pos := (start + seq.startPos) % W with hpos
        set glast := (last + seq.startPos) % W with hglast
        by_cases hpg : pos ≤ glast
        · have hWg : glast + step < W := by
            have h1 : glast ≤ last + seq.startPos := Nat.mod_le _ _
            have h2 : last ≤ seq.len := by omega
            omega
          have hful : glast + 2 ≤ (glast + 2 - pos) + pos := by omega
          have hs := scanLoop_spec env seq.sid step glast hstep hWg (glast + 2 - pos) pos hful
          cases hscan : scanLoop env seq.sid step glast (glast + 2 - pos) pos with
          | error e =>
            have he : e ≠ .fuelOut := by
              intro h
              subst h
              exact hs.1 hscan
            simp only [hscan]
            intro h
            injection h with h2
            exact he h2
          | ok rows => simp [hscan]
        · simp [scanLoop_of_gt env seq.sid step glast (glast + 2 - pos) pos hpg]

/-- C9 witness: the loop spec applied at a concrete range and step. -/
theorem scanLoopTerminationWitness :
    scanLoop envRefOnly 0 1 3 5 0 ≠ .error .fuelOut :=
  (scanLoopTermination.1 envRefOnly 0 1 3 5 0 (by decide) (by decide) (by decide)).1

theorem printSequenceM_countDupes (env : ScanEnv) (seq : SeqInfo)
    (start length step : Nat) (na : Bool) :
    printSequenceM env seq start length step true na
      = printSequenceM env seq start length step false na := rfl

theorem printGenomeSeqs_countDupes (env : ScanEnv) :
    ∀ (seqs : List SeqInfo) (start length step : Nat) (na : Bool) (rl : Nat),
      printGenomeSeqs env seqs start length step true na rl
        = printGenomeSeqs env seqs start length step false na rl
  | [], _, _, _, _, _ => rfl
  | s :: rest, start, length, step, na, rl => by
    unfold printGenomeSeqs
    split
    · simp only [printSequenceM_countDupes,
        printGenomeSeqs_countDupes env rest start length step na]
    · exact printGenomeSeqs_countDupes env rest start length step na rl

/-- C10: the depth-scan output does not depend on the countDupes flag:
printGenome (and printSequence) produce identical output streams for
countDupes = true and countDupes = false on every input, because the
parameter is accepted but never read (halIdentity.cpp lines 221-373). -/
theorem countDupesIndependence (env : ScanEnv) (genome : GenomeInfo)
    (sequence : Option SeqInfo) (start length step : Nat) (na : Bool) :
    printGenomeM env genome sequence start length step true na
      = printGenomeM env genome sequence start length step false na := by
  cases sequence with
  | some s => simp only [printGenomeM, printSequenceM_countDupes]
  | none =>
    simp only [printGenomeM]
    split
    · rfl
    · exact printGenomeSeqs_countDupes env genome.seqs start _ step na 0

/-! ### Range-check lemmas (C5) -/

theorem len0_last_eq (start len : Nat) (hs : start < W) (hl : len < W) :
    (start + sub64 len start) % W = len := by
  unfold sub64
  rw [Nat.mod_eq_of_lt hs]
  rcases le_or_lt start len with h | h
  · have h1 : len + (W - start) = W + (len - start) := by omega
    rw [h1, Nat.add_mod_left, Nat.mod_eq_of_lt (show len - start < W by omega)]
    have h2 : start + (len - start) = len := by omega
    rw [h2, Nat.mod_eq_of_lt hl]
  · have h1 : (len + (W - start)) % W = len + (W - start) :=
      Nat.mod_eq_of_lt (by omega)
    rw [h1]
    have h2 : start + (len + (W - start)) = W + len := by omega
    rw [h2, Nat.add_mod_left, Nat.mod_eq_of_lt hl]

theorem printSequenceM_range_iff (env : ScanEnv) (seq : SeqInfo)
    (start length step : Nat) (cd na : Bool)
    (hs : start < W) (hl : seq.len < W) :
    printSequenceM env seq start length step cd na = .error .range ↔
      seq.len ≠ 0 ∧ length ≠ 0 ∧ seq.len < (start + length) % W := by
  unfold printSequenceM
  dsimp only
  by_cases hz : seq.len = 0
  · simp [hz]
  · rw [if_neg hz]
    set len := if length = 0 then sub64 seq.len start else length with hlen
    set last := (start + len) % W with hlast
    set pos := (start + seq.startPos) % W with hpos
    set glast := (last + seq.startPos) % W with hglast
    by_cases hgt : last > seq.len
    · rw [if_pos hgt]
      have h0 : length ≠ 0 := by
        intro h0
        rw [hlast, hlen, if_pos h0, len0_last_eq start seq.len hs hl] at hgt
        omega
      have hlast2 : last = (start + length) % W := by
        rw [hlast, hlen, if_neg h0]
      exact ⟨fun _ => ⟨hz, h0, by rw [← hlast2]; exact hgt⟩, fun _ => rfl⟩
    · rw [if_neg hgt]
      cases hscan : scanLoop env seq.sid step glast (glast + 2 - pos) pos with
      | error e =>
        have hne := scanLoop_ne_range env seq.sid step glast (glast + 2 - pos) pos
        constructor
        · intro h
          injection h with he
          subst he
          exact absurd hscan hne
        · rintro ⟨_, h0, hgt2⟩
          have hl2 : last = (start + length) % W := by rw [hlast, hlen, if_neg h0]
          rw [← hl2] at hgt2
          omega
      | ok rows =>
        constructor
        · intro h
          simp at h
        · rintro ⟨_, h0, hgt2⟩
          have hl2 : last = (start + length) % W := by rw [hlast, hlen, if_neg h0]
          rw [← hl2] at hgt2
          omega

theorem printGenomeSeqs_no_range (env : ScanEnv) (step : Nat) (cd na : Bool) :
    ∀ (seqs : List SeqInfo) (start length rl : Nat),
      (∀ sq ∈ seqs, sq.startPos + sq.len < W) →
      printGenomeSeqs env seqs start length step cd na rl ≠ .error .range
  | [], _, _, _, _ => by simp [printGenomeSeqs]
  | s :: rest, start, length, rl, hseq => by
    have hsW : s.startPos + s.len < W := hseq s (by simp)
    have hrest : ∀ sq ∈ rest, sq.startPos + sq.len < W :=
      fun sq h => hseq sq (by simp [h])
    unfold printGenomeSeqs
    split
    · rename_i hguard
      obtain ⟨hg1, hg2, hg3⟩ := hguard
      dsimp only
      set readStart := if s.startPos ≥ start then 0 else start - s.startPos with hrs
      set readLen0 := min (s.len - readStart) length with hrl0
      set readLen := min readLen0 (length - rl) with hrl
      have hmodg : (s.startPos + s.len) % W = s.startPos + s.len := Nat.mod_eq_of_lt hsW
      have hrsle : readStart ≤ s.len := by
        rw [hrs]
        split
        · omega
        · rename_i hge
          rw [hmodg] at hg2
          omega
      have hrlle : readStart + readLen ≤ s.len := by
        rw [hrl, hrl0]
        omega
      have hrsW : readStart < W := by omega
      have hseqW : s.len < W := by omega
      have hnr := printSequenceM_range_iff env s readStart readLen step cd na hrsW hseqW
      cases hps : printSequenceM env s readStart readLen step cd na with
      | error e =>
        have he : e ≠ .range := by
          intro h
          subst h
          obtain ⟨_, _, h3⟩ := hnr.mp hps
          rw [Nat.mod_eq_of_lt (show readStart + readLen < W by omega)] at h3
          omega
        simp only
        intro h
        injection h with h2
        exact he h2
      | ok out =>
        cases hrec : printGenomeSeqs env rest start length step cd na ((rl + readLen) % W) with
        | error e =>
          have hrr := printGenomeSeqs_no_range env step cd na rest start length
            ((rl + readLen) % W) hrest
          simp only
          intro h
          injection h with h2
          subst h2
          exact hrr hrec
        | ok outs => simp
    · exact printGenomeSeqs_no_range env step cd na rest start length rl hrest

theorem printGenomeM_range_iff (env : ScanEnv) (genome : GenomeInfo)
    (start length step : Nat) (cd na : Bool)
    (hseq : ∀ sq ∈ genome.seqs, sq.startPos + sq.len < W) :
    printGenomeM env genome none start length step cd na = .error .range ↔
      genome.len < (start + length) % W := by
  simp only [printGenomeM]
  by_cases hgt : (start + length) % W > genome.len
  · simp [hgt]
  · rw [if_neg hgt]
    constructor
    · intro h
      exact absurd h (printGenomeSeqs_no_range env step cd na genome.seqs start _ 0 hseq)
    · intro h
      omega

/-- C5 counterexample: with a reference sequence of length 10, start 15
beyond its end and length 0, the sequence-level scan raises no RangeError
— it emits the headers and zero rows — although the claim requires a
RangeError for a length-0 request whose start lies beyond the end.  (The
same request without a reference sequence does raise it at genome level,
because printGenome checks before substituting length 0.) -/
theorem rangeCheckLengthZeroCex :
    printGenomeM envEmpty ⟨10, [seqS]⟩ (some seqS) 15 0 1 false false
      = .ok [some (("s", 16, 1), [])] ∧
    printSequenceM envEmpty seqS 15 0 1 false false = .ok (some (("s", 16, 1), [])) ∧
    10 < 15 ∧
    printGenomeM envEmpty ⟨10, [seqS]⟩ none 15 0 1 false false = .error .range :=
  ⟨rfl, rfl, by decide, rfl⟩

/-- C5 (amended): for machine-ranged operands the scan raises RangeError
exactly as follows.  With a reference sequence: iff the sequence is
nonempty, the requested length is nonzero, and start + length (mod 2 ^ 64)
exceeds the sequence length — in particular a length-0 request never
raises RangeError at sequence level, even when start lies beyond the end
(the effective end then equals the sequence length by unsigned
arithmetic), and a zero-length sequence never raises it.  Without a
reference sequence: iff start + length (mod 2 ^ 64) exceeds the genome
length — which for length 0 means start beyond the genome end, as the
claim states; the per-sequence sub-scans never add a RangeError of their
own.  The sequence-specified call is printSequence verbatim. -/
theorem rangeErrorCharacterization :
    (∀ (env : ScanEnv) (seq : SeqInfo) (start length step : Nat) (cd na : Bool),
      start < W → seq.len < W →
      (printSequenceM env seq start length step cd na = .error .range ↔
        seq.len ≠ 0 ∧ length ≠ 0 ∧ seq.len < (start + length) % W)) ∧
    (∀ (env : ScanEnv) (genome : GenomeInfo) (start length step : Nat) (cd na : Bool),
      (∀ sq ∈ genome.seqs, sq.startPos + sq.len < W) →
      (printGenomeM env genome none start length step cd na = .error .range ↔
        genome.len < (start + length) % W)) ∧
    (∀ (env : ScanEnv) (genome : GenomeInfo) (s : SeqInfo)
      (start length step : Nat) (cd na : Bool),
      printGenomeM env genome (some s) start length step cd na
        = (printSequenceM env s start length step cd na).map (fun o => [o])) :=
  ⟨fun env seq start length step cd na hs hl =>
    printSequenceM_range_iff env seq start length step cd na hs hl,
   fun env genome start length step cd na hseq =>
    printGenomeM_range_iff env genome start length step cd na hseq,
   fun _ _ _ _ _ _ _ _ => rfl⟩

/-- C5 witness: the characterization applied at a concrete overlong
range, producing the RangeError. -/
theorem rangeErrorWitness :
    printSequenceM envEmpty seqS 3 20 1 false false = .error .range :=
  (rangeErrorCharacterization.1 envEmpty seqS 3 20 1 false false
    (by decide) (by decide)).mpr ⟨by decide, by decide, by decide⟩

/-! ### Dirty-flag lemmas (C2) -/

theorem writeTree_dirty (s : AlignState) : (writeTree s).dirty = s.dirty := by
  unfold writeTree
  split <;> rfl

theorem close_dirty (s : AlignState) : (close s).dirty = s.dirty := by
  unfold close
  split
  · exact writeTree_dirty s
  · rfl

theorem loadTree_dirty (parse : String → STree) (s : AlignState) :
    (loadTree parse s).dirty = s.dirty := by
  unfold loadTree
  dsimp only
  split <;> rfl

theorem openStore_dirty (parse : String → STree) (s : AlignState) (f : HalFile) :
    (openStore parse s f).dirty = s.dirty := by
  simp [openStore, loadTree_dirty, close_dirty]

theorem close_fileTree_of_dirty (s : AlignState) (hf : s.fileOpen = true)
    (hd : s.dirty = true) : (close s).fileTree = newickOfTree s.tree := by
  simp [close, writeTree, hf, hd]

/-- C2 counterexample: createNew leaves the store dirty and open, yet
close does not clear the flag, and neither does a subsequent open — the
flag stays set, contradicting the claim that a successful tree flush on
close clears it and that open leaves it clear. -/
theorem dirtyFlagClaimCex :
    (createNew initState).fileOpen = true ∧
    (createNew initState).dirty = true ∧
    (close (createNew initState)).dirty = true ∧
    (openStore parseTrivial (createNew initState) fileEmpty).dirty = true :=
  ⟨rfl, rfl, rfl, rfl⟩

/-- C2 (amended): every tree mutation (addRootGenome, addLeafGenome,
createNew) sets the dirty flag, and close of a dirty open store
serializes and persists the tree — but nothing ever clears the flag:
close and open both leave it exactly as it was, and only a freshly
constructed store is clean. -/
theorem dirtyFlagDiscipline :
    (∀ (s : AlignState) (name : String) (bl : ℚ) (g : GenomeH) (s2 : AlignState),
      addRootGenome s name bl = .ok (g, s2) → s2.dirty = true) ∧
    (∀ (s : AlignState) (name parentName : String) (bl : ℚ) (g : GenomeH) (s2 : AlignState),
      addLeafGenome s name parentName bl = .ok (g, s2) → s2.dirty = true) ∧
    (∀ s : AlignState, (createNew s).dirty = true) ∧
    (∀ s : AlignState, (close s).dirty = s.dirty) ∧
    (∀ (parse : String → STree) (s : AlignState) (f : HalFile),
      (openStore parse s f).dirty = s.dirty) ∧
    (∀ s : AlignState, s.fileOpen = true → s.dirty = true →
      (close s).fileTree = newickOfTree s.tree) ∧
    initState.dirty = false := by
  refine ⟨?_, ?_, fun s => rfl, close_dirty, openStore_dirty, close_fileTree_of_dirty, rfl⟩
  · intro s name bl g s2 h
    unfold addRootGenome at h
    split at h
    · simp at h
    · split at h
      · simp at h
      · injection h with h2
        have := congrArg Prod.snd h2
        simp at this
        rw [← this]
  · intro s name parentName bl g s2 h
    unfold addLeafGenome at h
    split at h
    · simp at h
    · split at h
      · simp at h
      · split at h
        · simp at h
        · injection h with h2
          have := congrArg Prod.snd h2
          simp at this
          rw [← this]

/-- C2 witness: the amended discipline applied at the concrete dirty
store produced by createNew. -/
theorem dirtyFlagDisciplineWitness :
    (close (createNew initState)).fileTree = "" ∧
    (close (createNew initState)).dirty = true := by
  constructor
  · have h := dirtyFlagDiscipline.2.2.2.2.2.1 (createNew initState) rfl rfl
    simpa [newickOfTree] using h
  · rw [dirtyFlagDiscipline.2.2.2.1 (createNew initState)]
    exact dirtyFlagDiscipline.2.2.1 initState

/-- C3: the claim is right and the code violates it.  After close (and
likewise after a createNew that follows it) the store holds no open
genomes and no tree, a second close is a no-op and the defensive asserts
of the idle branch hold — but _nodeMap is never cleared: the stale entry
A survives close and createNew, the assert inside getNumGenomes is
violated on the closed store, and re-adding the fresh name A to the brand
new store fails with DuplicateNameError. -/
theorem staleNodeMapAfterClose :
    stateRootA.nodeMap = ["A"] ∧
    (close stateRootA).openGenomes = [] ∧
    (close stateRootA).tree = none ∧
    close (close stateRootA) = close stateRootA ∧
    closeIdleAssert (close stateRootA) ∧
    (close stateRootA).nodeMap = ["A"] ∧
    ¬ numGenomesAssert (close stateRootA) ∧
    (createNew (close stateRootA)).nodeMap = ["A"] ∧
    addRootGenome (createNew (close stateRootA)) "A" 1 = .error .duplicateName :=
  ⟨rfl, rfl, rfl, rfl,
   fun _ => ⟨rfl, rfl⟩,
   rfl,
   fun hassert => absurd (hassert rfl) (by decide),
   rfl, rfl⟩

/-! ### addRootGenome (C4) -/

/-- C4 counterexample: on a store whose TreeIndex was loaded from the
empty stored tree string the node map is empty, yet addRootGenome does
not make the new name the sole node: _tree holds the stTree_construct
placeholder, which is not NULL, so the new root receives the placeholder
as a child carrying the branch length, and the resulting tree has two
nodes, not one. -/
theorem addRootOnLoadedEmptyCex :
    loadedEmptyState.nodeMap = [] ∧
    loadedEmptyState.tree = some placeholderTree ∧
    (match addRootGenome loadedEmptyState "A" 2 with
      | .ok (_, s2) => s2.tree
      | .error _ => none)
      = some (.node (some "A") none [.node none (some 2) []]) ∧
    (match addRootGenome loadedEmptyState "A" 2 with
      | .ok (_, s2) => match s2.tree with
        | some t => t.countNodes
        | none => 0
      | .error _ => 0) = 2 ∧
    (2 : Nat) ≠ 1 :=
  ⟨rfl, rfl, rfl, rfl, by decide⟩

/-- C4 (amended): for every store state and nonempty fresh name,
addRootGenome succeeds, caches a fresh empty-payload genome, marks the
store dirty, and installs name as the root; when _tree is NULL (as after
createNew) the name is the sole node, and when any tree node exists —
including the placeholder loaded from an empty stored tree string — that
former tree becomes the single child of the new root with branchLength
written onto it. -/
theorem addRootGenomeSpec (s : AlignState) (name : String) (bl : ℚ)
    (h1 : name ≠ "") (h2 : name ∉ s.nodeMap) :
    (addRootGenome s name bl).isOk = true ∧
    ∀ g s2, addRootGenome s name bl = .ok (g, s2) →
      g = ⟨s.nextId, emptyPayload⟩ ∧
      s2.nodeMap = name :: s.nodeMap ∧
      s2.dirty = true ∧
      s2.openGenomes = cacheInsert name ⟨s.nextId, emptyPayload⟩ s.openGenomes ∧
      s2.nextId = s.nextId + 1 ∧
      (s.tree = none → s2.tree = some (.node (some name) none [])) ∧
      (∀ t, s.tree = some t →
        s2.tree = some (.node (some name) none [t.setBranchLength bl])) := by
  have hval : addRootGenome s name bl = .ok (⟨s.nextId, emptyPayload⟩,
      { s with
        tree := some (match s.tree with
          | none => .node (some name) none []
          | some t => .node (some name) none [t.setBranchLength bl])
        nodeMap := name :: s.nodeMap
        openGenomes := cacheInsert name ⟨s.nextId, emptyPayload⟩ s.openGenomes
        dirty := true
        nextId := s.nextId + 1 }) := by
    unfold addRootGenome
    rw [if_neg h1, if_neg h2]
  rw [hval]
  refine ⟨rfl, ?_⟩
  intro g s2 h
  injection h with h2
  injection h2 with hg hs
  subst hg
  subst hs
  refine ⟨rfl, rfl, rfl, rfl, rfl, ?_, ?_⟩
  · intro ht
    simp [ht]
  · intro t ht
    simp [ht]

/-- C4 witness: the amended description applied on the state produced by
createNew, where the tree really is NULL. -/
theorem addRootGenomeSpecWitness :
    (addRootGenome (createNew initState) "B" 1).isOk = true := by
  have h := addRootGenomeSpec (createNew initState) "B" 1 (by decide) (by decide)
  exact h.1

/-! ### Insertion under a labeled parent (C6) -/

mutual

theorem findInsert_tree (p : String) (c : STree) :
    ∀ t : STree,
      (∀ q, findNode t p = some q →
        (insertChildF t p c).2 = true ∧
        findNode (insertChildF t p c).1 p
          = some (.node q.label q.branchLength (q.children ++ [c]))) ∧
      (findNode t p = none → insertChildF t p c = (t, false))
  | .node l b cs => by
    by_cases hl : l = some p
    · constructor
      · intro q hq
        rw [findNode, if_pos hl] at hq
        injection hq with hq2
        subst hq2
        constructor
        · rw [insertChildF, if_pos hl]
        · rw [insertChildF, if_pos hl]
          dsimp only
          rw [findNode, if_pos hl]
          rfl
      · intro hq
        rw [findNode, if_pos hl] at hq
        exact Option.noConfusion hq
    · have ihcs := findInsert_forest p c cs
      constructor
      · intro q hq
        rw [findNode, if_neg hl] at hq
        obtain ⟨h1, h2⟩ := ihcs.1 q hq
        constructor
        · rw [insertChildF, if_neg hl]
          dsimp only
          exact h1
        · rw [insertChildF, if_neg hl]
          dsimp only
          rw [findNode, if_neg hl]
          exact h2
      · intro hq
        rw [findNode, if_neg hl] at hq
        have h2 := ihcs.2 hq
        rw [insertChildF, if_neg hl]
        dsimp only
        rw [h2]

theorem findInsert_forest (p : String) (c : STree) :
    ∀ ts : List STree,
      (∀ q, findNodeList ts p = some q →
        (insertChildList ts p c).2 = true ∧
        findNodeList (insertChildList ts p c).1 p
          = some (.node q.label q.branchLength (q.children ++ [c]))) ∧
      (findNodeList ts p = none → insertChildList ts p c = (ts, false))
  | [] => by
    constructor
    · intro q hq
      exact Option.noConfusion hq
    · intro _
      rfl
  | t :: ts => by
    have iht := findInsert_tree p c t
    have ihts := findInsert_forest p c ts
    constructor
    · intro q hq
      rw [findNodeList] at hq
      cases hft : findNode t p with
      | some q2 =>
        rw [hft] at hq
        simp only at hq
        injection hq with hq2
        subst hq2
        obtain ⟨hi1, hi2⟩ := iht.1 q2 hft
        constructor
        · simp [insertChildList, hi1]
        · simp [insertChildList, hi1, findNodeList, hi2]
      | none =>
        rw [hft] at hq
        simp only at hq
        have ht2 := iht.2 hft
        obtain ⟨hj1, hj2⟩ := ihts.1 q hq
        constructor
        · simp [insertChildList, ht2, hj1]
        · simp [insertChildList, ht2, findNodeList, hft, hj2]
    · intro hq
      rw [findNodeList] at hq
      cases hft : findNode t p with
      | some q2 =>
        rw [hft] at hq
        simp only at hq
        exact Option.noConfusion hq
      | none =>
        rw [hft] at hq
        simp only at hq
        have ht2 := iht.2 hft
        have ht3 := ihts.2 hq
        simp [insertChildList, ht2, ht3]

end

/-- C6: addLeafGenome validates exactly in source order — empty name or
parent name gives InvalidArgumentError, an existing name gives
DuplicateNameError, a missing parent gives NotFoundError — and otherwise
succeeds: the name joins the node map, a fresh empty-payload genome
(never read from storage) joins the cache, the store is marked dirty, the
new writable handle is returned, and the new node, carrying the given
branch length, is appended to the children of the parent node. -/
theorem addLeafGenomeSpec (s : AlignState) (name parentName : String) (bl : ℚ) :
    (name = "" ∨ parentName = "" →
      addLeafGenome s name parentName bl = .error .invalidArgument) ∧
    (¬(name = "" ∨ parentName = "") → name ∈ s.nodeMap →
      addLeafGenome s name parentName bl = .error .duplicateName) ∧
    (¬(name = "" ∨ parentName = "") → name ∉ s.nodeMap → parentName ∉ s.nodeMap →
      addLeafGenome s name parentName bl = .error .notFound) ∧
    (¬(name = "" ∨ parentName = "") → name ∉ s.nodeMap → parentName ∈ s.nodeMap →
      (addLeafGenome s name parentName bl).isOk = true ∧
      ∀ g s2, addLeafGenome s name parentName bl = .ok (g, s2) →
        g = ⟨s.nextId, emptyPayload⟩ ∧
        s2.nodeMap = name :: s.nodeMap ∧
        s2.dirty = true ∧
        s2.openGenomes = cacheInsert name ⟨s.nextId, emptyPayload⟩ s.openGenomes ∧
        s2.nextId = s.nextId + 1 ∧
        s2.tree = s.tree.map (fun t =>
          (insertChildF t parentName (.node (some name) (some bl) [])).1) ∧
        (∀ t q, s.tree = some t → findNode t parentName = some q →
          findNode ((insertChildF t parentName (.node (some name) (some bl) [])).1)
              parentName
            = some (.node q.label q.branchLength
                (q.children ++ [.node (some name) (some bl) []])))) := by
  refine ⟨?_, ?_, ?_, ?_⟩
  · intro h
    unfold addLeafGenome
    rw [if_pos h]
  · intro h hm
    unfold addLeafGenome
    rw [if_neg h, if_pos hm]
  · intro h hm hp
    unfold addLeafGenome
    rw [if_neg h, if_neg hm, if_pos hp]
  · intro h hm hp
    have hval : addLeafGenome s name parentName bl = .ok (⟨s.nextId, emptyPayload⟩,
        { s with
          tree := s.tree.map (fun t =>
            (insertChildF t parentName (.node (some name) (some bl) [])).1)
          nodeMap := name :: s.nodeMap
          openGenomes := cacheInsert name ⟨s.nextId, emptyPayload⟩ s.openGenomes
          dirty := true
          nextId := s.nextId + 1 }) := by
      unfold addLeafGenome
      rw [if_neg h, if_neg hm, if_neg (not_not_intro hp)]
    rw [hval]
    refine ⟨rfl, ?_⟩
    intro g s2 h2
    injection h2 with h3
    injection h3 with hg hs
    subst hg
    subst hs
    refine ⟨rfl, rfl, rfl, rfl, rfl, rfl, ?_⟩
    intro t q ht hfind
    exact ((findInsert_tree parentName (.node (some name) (some bl) []) t).1 q hfind).2

/-- C6 witness: the specification applied on the concrete store holding
root A, adding leaf B under A. -/
theorem addLeafGenomeSpecWitness :
    (addLeafGenome stateRootA "B" "A" 2).isOk = true := by
  have h := (addLeafGenomeSpec stateRootA "B" "A" 2).2.2.2
    (by decide) (by decide) (by decide)
  exact h.1

/-! ### Genome cache lemmas (C7) -/

theorem lookup_none_of_not_mem {α : Type} (k : String) :
    ∀ l : List (String × α), k ∉ l.map Prod.fst → List.lookup k l = none
  | [], _ => rfl
  | (a, b) :: t, h => by
    have h1 : k ≠ a := fun he => h (by simp [he])
    have h2 : k ∉ t.map Prod.fst := fun he => h (by simp [he])
    have hb : (k == a) = false := beq_eq_false_iff_ne.mpr h1
    simp only [List.lookup, hb]
    exact lookup_none_of_not_mem k t h2

theorem lookup_eraseP_none {α : Type} (k : String) :
    ∀ l : List (String × α), (l.map Prod.fst).Nodup →
      List.lookup k (l.eraseP (fun p => p.1 == k)) = none
  | [], _ => rfl
  | (a, b) :: t, h => by
    have hnd : (t.map Prod.fst).Nodup := by
      simp only [List.map_cons, List.nodup_cons] at h
      exact h.2
    have hna : a ∉ t.map Prod.fst := by
      simp only [List.map_cons, List.nodup_cons] at h
      exact h.1
    by_cases hak : a = k
    · subst hak
      have he : ((a, b) :: t).eraseP (fun p => p.1 == a) = t := by
        simp [List.eraseP_cons]
      rw [he]
      exact lookup_none_of_not_mem a t hna
    · have he : ((a, b) :: t).eraseP (fun p => p.1 == k)
          = (a, b) :: t.eraseP (fun p => p.1 == k) := by
        simp [List.eraseP_cons, hak]
      rw [he]
      have hb : (k == a) = false := beq_eq_false_iff_ne.mpr (Ne.symm hak)
      simp only [List.lookup, hb]
      exact lookup_eraseP_none k t hnd

/-- C7: openGenome is identity-stable and total over names.  A cached
name returns the cached instance with the state untouched (no storage
read); a second consecutive call always returns exactly what the first
did; an uncached name known to the tree is materialized by reading its
payload from the container and is cached; an unknown name yields the
absence signal none, not an error; closing an unopened genome is the
invariant violation; and closeGenome followed by openGenome re-reads the
written-back payload from storage as a fresh instance. -/
theorem openGenomeSpec :
    (∀ (s : AlignState) (name : String) (g : GenomeH),
      s.openGenomes.lookup name = some g → openGenome s name = (some g, s)) ∧
    (∀ (s : AlignState) (name : String),
      openGenome (openGenome s name).2 name
        = ((openGenome s name).1, (openGenome s name).2)) ∧
    (∀ (s : AlignState) (name : String),
      s.openGenomes.lookup name = none → name ∈ s.nodeMap →
      openGenome s name = (some ⟨s.nextId, s.fileGenomes name⟩,
        { s with
          openGenomes := (name, ⟨s.nextId, s.fileGenomes name⟩) :: s.openGenomes
          nextId := s.nextId + 1 })) ∧
    (∀ (s : AlignState) (name : String),
      s.openGenomes.lookup name = none → name ∉ s.nodeMap →
      openGenome s name = (none, s)) ∧
    (∀ (s : AlignState) (name : String),
      s.openGenomes.lookup name = none →
      closeGenome s name = .error .invariantViolation) ∧
    (∀ (s : AlignState) (name : String) (g : GenomeH),
      (s.openGenomes.map Prod.fst).Nodup →
      s.openGenomes.lookup name = some g →
      ∀ s2, closeGenome s name = .ok s2 →
        s2.fileGenomes name = g.payload ∧
        s2.nextId = s.nextId ∧
        (name ∈ s.nodeMap →
          (openGenome s2 name).1 = some ⟨s2.nextId, g.payload⟩)) := by
  have hopen : ∀ (s : AlignState) (name : String) (g : GenomeH),
      s.openGenomes.lookup name = some g → openGenome s name = (some g, s) := by
    intro s name g h
    unfold openGenome
    rw [h]
  have hmat : ∀ (s : AlignState) (name : String),
      s.openGenomes.lookup name = none → name ∈ s.nodeMap →
      openGenome s name = (some ⟨s.nextId, s.fileGenomes name⟩,
        { s with
          openGenomes := (name, ⟨s.nextId, s.fileGenomes name⟩) :: s.openGenomes
          nextId := s.nextId + 1 }) := by
    intro s name h hm
    unfold openGenome
    rw [h]
    dsimp only
    rw [if_pos hm]
    have hci : cacheInsert name ⟨s.nextId, s.fileGenomes name⟩ s.openGenomes
        = (name, ⟨s.nextId, s.fileGenomes name⟩) :: s.openGenomes := by
      unfold cacheInsert
      rw [h]
      rfl
    rw [hci]
  have habs : ∀ (s : AlignState) (name : String),
      s.openGenomes.lookup name = none → name ∉ s.nodeMap →
      openGenome s name = (none, s) := by
    intro s name h hm
    unfold openGenome
    rw [h]
    dsimp only
    rw [if_neg hm]
  refine ⟨hopen, ?_, hmat, habs, ?_, ?_⟩
  · intro s name
    cases hl : s.openGenomes.lookup name with
    | some g =>
      rw [hopen s name g hl, hopen s name g hl]
    | none =>
      by_cases hm : name ∈ s.nodeMap
      · rw [hmat s name hl hm]
        dsimp only
        apply hopen
        simp [List.lookup]
      · rw [habs s name hl hm]
        dsimp only
        rw [habs s name hl hm]
  · intro s name h
    unfold closeGenome
    rw [h]
  · intro s name g hnd hl s2 h2
    have hval : closeGenome s name = .ok
        { s with
          fileGenomes := fun n => if n = name then g.payload else s.fileGenomes n
          openGenomes := s.openGenomes.eraseP (fun ng => ng.1 == name) } := by
      unfold closeGenome
      rw [hl]
    rw [hval] at h2
    injection h2 with h3
    subst h3
    refine ⟨by simp, rfl, ?_⟩
    intro hm
    have hle : List.lookup name (s.openGenomes.eraseP (fun ng => ng.1 == name)) = none :=
      lookup_eraseP_none name s.openGenomes hnd
    have := hmat
      { s with
        fileGenomes := fun n => if n = name then g.payload else s.fileGenomes n
        openGenomes := s.openGenomes.eraseP (fun ng => ng.1 == name) }
      name hle hm
    rw [this]
    simp

/-- C7 witness: the close-then-reopen clause applied on the concrete
store holding genome A, showing the payload is re-read from storage in a
fresh instance. -/
theorem openGenomeSpecWitness :
    (openGenome stateRootAClosed "A").1 = some ⟨1, 0⟩ := by
  have h := openGenomeSpec.2.2.2.2.2 stateRootA "A" ⟨0, 0⟩
    (by decide) rfl stateRootAClosed rfl
  exact h.2.2 (by decide)

end HalSpec

